import Mathlib

/-!
Shallow embedding of the RVEA survival-selection engine
(`pymoo/algorithms/moo/rvea.py`): the `APDSurvival` geometry helpers
(`calc_V`, `calc_gamma`), the angle-penalized-distance selection `_do`,
the reference-direction adaptation `adapt`, and the `RVEA` optimizer shell
(`_setup` / `_advance` adaptation cadence, `_set_optimum`).

Numeric arrays are modelled as lists of real numbers; `np.inf` (the initial
ideal-point components) is modelled by `(⊤ : EReal)`.  All arithmetic is
exact real arithmetic.
-/

open scoped Classical

noncomputable section

/-- Dot product of two real vectors (numpy `a @ b` row semantics). -/
def dot : List ℝ → List ℝ → ℝ
  | [], _ => 0
  | _ :: _, [] => 0
  | a :: as, b :: bs => a * b + dot as bs

/-- Euclidean norm, `np.linalg.norm` of a single vector. -/
def norm2 (v : List ℝ) : ℝ := Real.sqrt (dot v v)

/-- Descending sort of a row, `(- np.sort(-row))`. -/
def sortDesc (l : List ℝ) : List ℝ := List.insertionSort (fun a b : ℝ => a ≥ b) l

/-- `calc_V(ref_dirs)`: normalize every reference direction to unit length
(`ref_dirs / np.linalg.norm(ref_dirs, axis=1)[:, None]`). -/
def calc_V (ref_dirs : List (List ℝ)) : List (List ℝ) :=
  ref_dirs.map (fun r => r.map (fun x => x / norm2 r))

/-- `calc_gamma(V)`: for each direction `i`, the arccos of the second entry of
the descending sort of row `i` of `V @ V.T`, floored at `1e-64`
(`np.maximum(np.arccos((- np.sort(-1 * V @ V.T))[:, 1]), 1e-64)`).
Row `i` of `V @ V.T` is the list of dot products of `V[i]` with every row. -/
def calc_gamma (V : List (List ℝ)) : List ℝ :=
  V.map (fun vi => max (Real.arccos ((sortDesc (V.map (fun vj => dot vi vj))).getD 1 0)) 1e-64)

/-- First index attaining the minimum of a list, `np.argmin` semantics
(ties broken by the earliest occurrence). -/
def argminIdx : List ℝ → ℕ
  | [] => 0
  | [_] => 0
  | x :: y :: ys =>
    if x ≤ (y :: ys).getD (argminIdx (y :: ys)) 0 then 0 else argminIdx (y :: ys) + 1

/-- Column-wise minimum of a matrix given as a list of rows, `F.min(axis=0)`. -/
def colMin : List (List ℝ) → List ℝ
  | [] => []
  | f :: fs => fs.foldl (fun acc g => List.zipWith min acc g) f

/-- Column-wise maximum of a matrix given as a list of rows, `F.max(axis=0)`. -/
def colMax : List (List ℝ) → List ℝ
  | [] => []
  | f :: fs => fs.foldl (fun acc g => List.zipWith max acc g) f

/-- The floored distance to the ideal point of one translated objective row:
`np.linalg.norm(f)` with values below `1e-64` replaced by `1e-64`
(`dist_to_ideal[dist_to_ideal < 1e-64] = 1e-64`). -/
def distOf (f : List ℝ) : ℝ := if norm2 f < 1e-64 then 1e-64 else norm2 f

/-- One row of `F_prime = F / dist_to_ideal[:, None]`. -/
def fprimeOf (f : List ℝ) : List ℝ := f.map (fun x => x / distOf f)

/-- `acute_angle = np.arccos(F_prime @ V.T)`: for each candidate row, the
angle to every reference direction. -/
def acuteAngles (V : List (List ℝ)) (FP : List (List ℝ)) : List (List ℝ) :=
  FP.map (fun fp => V.map (fun v => Real.arccos (dot fp v)))

/-- `niches = acute_angle.argmin(axis=1)`: each candidate's niche index. -/
def nichesOf (A : List (List ℝ)) : List ℕ := A.map argminIdx

/-- `niches_to_ind`: candidate indices assigned to each of the `nV` reference
directions.  The source appends candidates in index order
(`for k, i in enumerate(niches): niches_to_ind[i].append(k)`), which yields,
for each direction `k`, the increasing list of candidate indices whose niche
is `k`. -/
def nichesToInd (nV : ℕ) (niches : List ℕ) : List (List ℕ) :=
  (List.range nV).map (fun k => (List.range niches.length).filter (fun c => decide (niches.getD c 0 = k)))

/-- Clamp to `[-1, 1]`.  Follows the spec's words ("arccos of dot product,
inputs clamped to valid domain"); the source applies `np.arccos` directly. -/
def clampUnit (x : ℝ) : ℝ := max (-1) (min x 1)

/-- The spec's reading of the angle computation, with the arccos input
clamped to `[-1, 1]`; to be compared with `acuteAngles`, the source's
computation. -/
def acuteAnglesClamped (V : List (List ℝ)) (FP : List (List ℝ)) : List (List ℝ) :=
  FP.map (fun fp => V.map (fun v => Real.arccos (clampUnit (dot fp v))))

/-- The type of the driving algorithm's termination object: the selection
code recognizes `MaximumGenerationTermination` and
`MaximumFunctionCallTermination`; anything else is `other`. -/
inductive TerminationKind where
  | maxGen
  | maxEval
  | other
deriving DecidableEq

/-- The termination object handed to `_do` via `algorithm.termination`:
its runtime type together with its progress fraction `perc`. -/
structure Termination where
  kind : TerminationKind
  perc : ℝ

/-- Persistent state of `APDSurvival`: the penalty exponent `alpha`, the raw
reference directions, the unit-direction matrix `V`, the neighbor angles
`gamma`, the ideal-point estimate (componentwise, `np.inf = ⊤` initially),
the nadir-point estimate (`None` before the first selection call) and the
stored niche assignment (`None` before the first selection call). -/
structure APDSurvival where
  alpha : ℝ
  ref_dirs : List (List ℝ)
  V : List (List ℝ)
  gamma : List ℝ
  ideal : List EReal
  nadir : Option (List ℝ)
  niches : Option (List (List ℕ))

/-- `APDSurvival.__init__(ref_dirs, alpha)`: geometry from `calc_V` /
`calc_gamma`, ideal point `np.full(n_dim, np.inf)`, nadir and niches unset. -/
def APDSurvival.init (ref_dirs : List (List ℝ)) (alpha : ℝ) : APDSurvival :=
  { alpha := alpha
    ref_dirs := ref_dirs
    V := calc_V ref_dirs
    gamma := calc_gamma (calc_V ref_dirs)
    ideal := List.replicate (ref_dirs.headD []).length (⊤ : EReal)
    nadir := none
    niches := none }

/-- `APDSurvival.adapt`: if the ideal and nadir estimates are available,
rebuild `V` and `gamma` from the original reference directions scaled
componentwise by `nadir - ideal`
(`self.V = calc_V(calc_V(self.ref_dirs) * (self.nadir - self.ideal))`).
In the source `self.ideal` is an array from construction on and is never
`None`, so only the `nadir is not None` half of the guard can fail. -/
def APDSurvival.adapt (s : APDSurvival) : APDSurvival :=
  match s.nadir with
  | none => s
  | some nadir =>
    let spread := List.zipWith (fun nd id => nd - id) nadir (s.ideal.map EReal.toReal)
    let scaled := (calc_V s.ref_dirs).map (fun v => List.zipWith (fun x d => x * d) v spread)
    { s with V := calc_V scaled, gamma := calc_gamma (calc_V scaled) }

/-- Step 1 of `_do`: `self.ideal = np.minimum(F.min(axis=0), self.ideal)`. -/
def doIdeal (s : APDSurvival) (F0 : List (List ℝ)) : List EReal :=
  List.zipWith (fun (a : ℝ) (b : EReal) => min (a : EReal) b) (colMin F0) s.ideal

/-- Step 2 of `_do`: `F = F - self.ideal`, the translated objective rows. -/
def doF (s : APDSurvival) (F0 : List (List ℝ)) : List (List ℝ) :=
  F0.map (fun f => List.zipWith (fun a b => a - b) f ((doIdeal s F0).map EReal.toReal))

/-- Step 3 of `_do`: the floored distances to the ideal point. -/
def doDist (s : APDSurvival) (F0 : List (List ℝ)) : List ℝ :=
  (doF s F0).map distOf

/-- Step 4 of `_do`: the normalized rows `F_prime`. -/
def doFP (s : APDSurvival) (F0 : List (List ℝ)) : List (List ℝ) :=
  (doF s F0).map fprimeOf

/-- Step 4 of `_do`: the candidate-to-direction angle matrix. -/
def doAngles (s : APDSurvival) (F0 : List (List ℝ)) : List (List ℝ) :=
  acuteAngles s.V (doFP s F0)

/-- Step 4 of `_do`: the niche assignment lists `niches_to_ind`. -/
def doNTI (s : APDSurvival) (F0 : List (List ℝ)) : List (List ℕ) :=
  nichesToInd s.V.length (nichesOf (doAngles s F0))

/-- The penalty coefficient `M = problem.n_obj if problem.n_obj > 2.0 else 1.0`. -/
def doM (n_obj : ℕ) : ℝ := if 2 < n_obj then n_obj else 1

/-- Step 5 of `_do`: the angle-penalized distance of candidate `i` for
direction `k`:
`apd = dist_to_ideal[i] * (1 + M * progress ** alpha * (theta / gamma[k]))`
with `theta` the candidate's angle to direction `k`. -/
def apdOf (s : APDSurvival) (F0 : List (List ℝ)) (n_obj : ℕ) (progress : ℝ) (k i : ℕ) : ℝ :=
  (doDist s F0).getD i 0 *
    (1 + doM n_obj * progress ^ s.alpha *
      (((doAngles s F0).getD i []).getD k 0 / s.gamma.getD k 0))

/-- Step 5 of `_do`, one niche: the assigned candidate attaining the first
minimum of the APD values (`assigned_to_niche[apd.argmin()]`). -/
def nicheSurvivor (s : APDSurvival) (F0 : List (List ℝ)) (n_obj : ℕ) (progress : ℝ) (k : ℕ) : ℕ :=
  let assigned := (doNTI s F0).getD k []
  assigned.getD (argminIdx (assigned.map (apdOf s F0 n_obj progress k))) 0

/-- `APDSurvival._do(problem, pop, algorithm)`: the per-generation selection.
Input: the engine state, the termination object of the driving algorithm,
`problem.n_obj`, and the population's objective rows `pop.get("F")`.
Output: the survivor indices (one per non-empty niche, in direction order)
and the updated state (new ideal estimate, stored niches, new nadir = the
columnwise maximum of the survivors' original objective rows).
The termination-type check of the source is present but its enforcing branch
is disabled (`pass`), so the result does not depend on the termination kind. -/
def APDSurvival._do (s : APDSurvival) (term : Termination) (n_obj : ℕ) (F0 : List (List ℝ)) :
    List ℕ × APDSurvival :=
  let _recognized : Prop := term.kind = TerminationKind.maxGen ∨ term.kind = TerminationKind.maxEval
  let progress := term.perc
  let survivors := (List.range s.V.length).filterMap (fun k =>
    if (doNTI s F0).getD k [] = [] then none
    else some (nicheSurvivor s F0 n_obj progress k))
  (survivors,
    { s with
      ideal := doIdeal s F0
      niches := some (doNTI s F0)
      nadir := some (colMax (survivors.map (fun i => F0.getD i []))) })

/-- State of the RVEA optimizer shell relevant to the adaptation cadence:
the configured `adapt_freq`, the adaptation counter `n_adapt`, and the
survival engine. -/
structure RVEA where
  adapt_freq : ℝ
  n_adapt : ℕ
  survival : APDSurvival

/-- `RVEA._setup`: the adaptation counter starts at 1 and the survival
engine is built from the reference directions and `alpha`. -/
def RVEA.setup (ref_dirs : List (List ℝ)) (alpha adapt_freq : ℝ) : RVEA :=
  { adapt_freq := adapt_freq, n_adapt := 1, survival := APDSurvival.init ref_dirs alpha }

/-- `RVEA._advance` (after the generational step): if
`termination.perc / adapt_freq >= n_adapt`, call `survival.adapt()` once and
increment the counter by one; otherwise leave the state unchanged. -/
def RVEA.advance (st : RVEA) (progress : ℝ) : RVEA :=
  if (st.n_adapt : ℝ) ≤ progress / st.adapt_freq then
    { st with n_adapt := st.n_adapt + 1, survival := st.survival.adapt }
  else st

/-- Modelled from the spec: `has_feasible` (imported from `pymoo.util.misc`,
which is not under `src/`) — "if no feasible candidate exists in the current
population"; a candidate is feasible iff its constraint violation `CV` is
zero ("a scalar constraint-violation value `CV` (0 if feasible)"), with
nonpositive values counted as satisfied. -/
def has_feasible (cvs : List ℝ) : Prop := ∃ cv ∈ cvs, cv ≤ 0

/-- `RVEA._set_optimum`: if the population has no feasible candidate, the
optimum is the singleton `pop[[np.argmin(pop.get("CV"))]]`; otherwise it is
the whole population.  `cvs` lists each candidate's `CV` in population
order, and the result is the list of selected population indices. -/
def set_optimum (cvs : List ℝ) : List ℕ :=
  if has_feasible cvs then List.range cvs.length else [argminIdx cvs]

/-- A small concrete engine state (two orthogonal unit reference directions
in two objectives, `alpha = 2`) used to instantiate the theorems below. -/
def Sc : APDSurvival :=
  { alpha := 2
    ref_dirs := [[1, 0], [0, 1]]
    V := [[1, 0], [0, 1]]
    gamma := [1, 1]
    ideal := [⊤, ⊤]
    nadir := none
    niches := none }

end

section Helpers

theorem dot_nil_right (a : List ℝ) : dot a [] = 0 := by cases a <;> rfl

theorem dot_self_nonneg (a : List ℝ) : 0 ≤ dot a a := by
  induction a with
  | nil => simp [dot]
  | cons x xs ih => simp only [dot]; nlinarith [sq_nonneg x]

theorem norm2_nonneg (a : List ℝ) : 0 ≤ norm2 a := Real.sqrt_nonneg _

theorem dot_sq_le (a b : List ℝ) : dot a b ^ 2 ≤ dot a a * dot b b := by
  induction a generalizing b with
  | nil => simp [dot]
  | cons x xs ih =>
    cases b with
    | nil => simp [dot, dot_nil_right]
    | cons y ys =>
      have h1 := ih ys
      have hA := dot_self_nonneg xs
      have hB := dot_self_nonneg ys
      simp only [dot]
      rcases eq_or_lt_of_le hA with hA0 | hA0
      · have hd : dot xs ys = 0 := by nlinarith [sq_nonneg (dot xs ys)]
        rw [← hA0, hd]
        nlinarith [sq_nonneg (x * y), mul_nonneg (sq_nonneg x) hB]
      · have key : dot xs xs * ((x * y + dot xs ys) ^ 2)
            ≤ dot xs xs * ((x * x + dot xs xs) * (y * y + dot ys ys)) := by
          nlinarith [sq_nonneg (x * dot xs ys - y * dot xs xs),
            mul_le_mul_of_nonneg_left h1 (sq_nonneg x),
            mul_le_mul_of_nonneg_left h1 hA]
        exact le_of_mul_le_mul_left key hA0

theorem abs_dot_le (a b : List ℝ) : |dot a b| ≤ norm2 a * norm2 b := by
  have h := Real.sqrt_le_sqrt (dot_sq_le a b)
  rw [Real.sqrt_sq_eq_abs, Real.sqrt_mul (dot_self_nonneg a)] at h
  simpa [norm2] using h

theorem dot_map_div (a b : List ℝ) (d : ℝ) (hd : d ≠ 0) :
    dot (a.map (fun x => x / d)) (b.map (fun x => x / d)) = dot a b / (d * d) := by
  induction a generalizing b with
  | nil => simp [dot]
  | cons x xs ih =>
    cases b with
    | nil => simp [dot, dot_nil_right]
    | cons y ys =>
      simp only [List.map_cons, dot, ih]
      field_simp

theorem norm2_map_div (f : List ℝ) (d : ℝ) (hd : 0 < d) :
    norm2 (f.map (fun x => x / d)) = norm2 f / d := by
  unfold norm2
  rw [dot_map_div f f d (ne_of_gt hd), Real.sqrt_div (dot_self_nonneg f),
    Real.sqrt_mul_self (le_of_lt hd)]

theorem distOf_pos (f : List ℝ) : 0 < distOf f := by
  unfold distOf
  split
  · norm_num
  · rename_i h
    push_neg at h
    calc (0:ℝ) < 1e-64 := by norm_num
      _ ≤ norm2 f := h

theorem norm2_le_distOf (f : List ℝ) : norm2 f ≤ distOf f := by
  unfold distOf
  split
  · rename_i h; exact le_of_lt h
  · exact le_refl _

theorem fprimeOf_norm_le (f : List ℝ) : norm2 (fprimeOf f) ≤ 1 := by
  unfold fprimeOf
  rw [norm2_map_div f _ (distOf_pos f), div_le_one (distOf_pos f)]
  exact norm2_le_distOf f

theorem dot_fprime_bounds (f v : List ℝ) (hv : norm2 v ≤ 1) :
    -1 ≤ dot (fprimeOf f) v ∧ dot (fprimeOf f) v ≤ 1 := by
  have hb : |dot (fprimeOf f) v| ≤ 1 := by
    refine (abs_dot_le (fprimeOf f) v).trans ?_
    exact mul_le_one₀ (fprimeOf_norm_le f) (norm2_nonneg v) hv
  constructor
  · linarith [neg_abs_le (dot (fprimeOf f) v), abs_nonneg (dot (fprimeOf f) v)]
  · exact le_trans (le_abs_self _) hb

theorem argminIdx_lt_length (l : List ℝ) (h : l ≠ []) : argminIdx l < l.length := by
  induction l with
  | nil => simp at h
  | cons x xs ih =>
    cases xs with
    | nil => simp [argminIdx]
    | cons y ys =>
      simp only [argminIdx]
      split
      · simp
      · have hlt := ih (by simp)
        simpa using Nat.succ_lt_succ hlt

theorem argminIdx_getD_le (l : List ℝ) (j : ℕ) (hj : j < l.length) :
    l.getD (argminIdx l) 0 ≤ l.getD j 0 := by
  induction l generalizing j with
  | nil => simp at hj
  | cons x xs ih =>
    cases xs with
    | nil =>
      have : j = 0 := by simpa using Nat.lt_one_iff.mp (by simpa using hj)
      simp [this, argminIdx]
    | cons y ys =>
      simp only [argminIdx]
      split
      · rename_i h
        cases j with
        | zero => simp
        | succ k =>
          have hk : k < (y :: ys).length := by simpa using hj
          have h2 := ih k hk
          simpa using le_trans h h2
      · rename_i h
        push_neg at h
        cases j with
        | zero => simpa using le_of_lt h
        | succ k =>
          have hk : k < (y :: ys).length := by simpa using hj
          simpa using ih k hk

theorem argminIdx_first (l : List ℝ) (j : ℕ) (hj : j < argminIdx l) :
    l.getD (argminIdx l) 0 < l.getD j 0 := by
  induction l generalizing j with
  | nil => simp [argminIdx] at hj
  | cons x xs ih =>
    cases xs with
    | nil => simp [argminIdx] at hj
    | cons y ys =>
      by_cases h : x ≤ (y :: ys).getD (argminIdx (y :: ys)) 0
      · simp only [argminIdx, if_pos h] at hj
        omega
      · simp only [argminIdx, if_neg h] at hj ⊢
        push_neg at h
        cases j with
        | zero => simpa using h
        | succ k =>
          have hk : k < argminIdx (y :: ys) := by omega
          simpa using ih k hk

theorem filterMap_ite_eq_filter_map {α β : Type} (l : List α) (c : α → Prop)
    [DecidablePred c] (g : α → β) :
    (l.filterMap (fun a => if c a then none else some (g a)))
      = (l.filter (fun a => decide (¬ c a))).map g := by
  induction l with
  | nil => rfl
  | cons x xs ih =>
    by_cases h : c x <;> simp [List.filterMap_cons, List.filter_cons, h, ih]

theorem length_filterMap_niches (l : List ℕ) (g : ℕ → ℕ) (N : List (List ℕ)) :
    (l.filterMap (fun k => if N.getD k [] = [] then none else some (g k))).length
      = (l.filter (fun k => decide (N.getD k [] ≠ []))).length := by
  induction l with
  | nil => rfl
  | cons x xs ih =>
    rw [List.filterMap_cons, List.filter_cons]
    by_cases h : N.getD x [] = []
    · rw [if_pos h]
      have hd : decide (N.getD x [] ≠ []) = false := decide_eq_false (not_not_intro h)
      rw [hd]
      simpa using ih
    · rw [if_neg h]
      have hd : decide (N.getD x [] ≠ []) = true := decide_eq_true h
      rw [hd]
      simpa using ih

theorem clampUnit_eq_self (x : ℝ) (h1 : -1 ≤ x) (h2 : x ≤ 1) : clampUnit x = x := by
  unfold clampUnit
  rw [min_eq_left h2, max_eq_right h1]

theorem min_coe_top (x : ℝ) : min (x : EReal) ⊤ = (x : EReal) := min_eq_left le_top

end Helpers

/-- Claim C10: the selection operation `_do` never modifies the geometry
state: the unit-direction matrix `V`, the neighbor angles `gamma`, the
stored reference-direction matrix and the exponent `alpha` are unchanged by
any selection call. -/
theorem C10_selection_preserves_geometry (s : APDSurvival) (term : Termination)
    (n_obj : ℕ) (F0 : List (List ℝ)) :
    (APDSurvival._do s term n_obj F0).2.V = s.V
    ∧ (APDSurvival._do s term n_obj F0).2.gamma = s.gamma
    ∧ (APDSurvival._do s term n_obj F0).2.ref_dirs = s.ref_dirs
    ∧ (APDSurvival._do s term n_obj F0).2.alpha = s.alpha :=
  ⟨rfl, rfl, rfl, rfl⟩

/-- Claim C9: the termination-type check in `_do` is present but its
enforcing branch is disabled, so selection completes normally for any
termination kind, using the reported progress value as-is: the result of
`_do` does not depend on the termination kind, only on its `perc` value. -/
theorem C9_unrecognized_termination_tolerated (s : APDSurvival) (n_obj : ℕ)
    (F0 : List (List ℝ)) (p : ℝ) (kind : TerminationKind) :
    APDSurvival._do s ⟨kind, p⟩ n_obj F0
      = APDSurvival._do s ⟨TerminationKind.maxGen, p⟩ n_obj F0 := rfl

/-- Claim C7: calling `adapt` while the nadir estimate is unavailable (as it
is before any selection call has run: `init` leaves it `none`, and in the
source the ideal is never `None`) leaves the whole state, in particular the
geometry `V` and `gamma`, unchanged. -/
theorem C7_adapt_noop_without_nadir (s : APDSurvival) (h : s.nadir = none) :
    APDSurvival.adapt s = s
    ∧ (APDSurvival.adapt s).V = s.V
    ∧ (APDSurvival.adapt s).gamma = s.gamma := by
  have he : APDSurvival.adapt s = s := by
    unfold APDSurvival.adapt
    rw [h]
  exact ⟨he, by rw [he], by rw [he]⟩

/-- Witness for C7 at the concrete pre-selection state `Sc`. -/
theorem C7_witness : APDSurvival.adapt Sc = Sc :=
  (C7_adapt_noop_without_nadir Sc rfl).1

/-- Claim C6: the adaptation counter starts at 1 (`_setup`), and each
`_advance` call checks `progress / adapt_freq >= n_adapt`; exactly when this
holds, it applies `adapt` once and increments the counter by exactly 1, and
otherwise it leaves the state unchanged. -/
theorem C6_adaptation_cadence (rd : List (List ℝ)) (a q : ℝ) (st : RVEA) (p : ℝ) :
    (RVEA.setup rd a q).n_adapt = 1
    ∧ ((st.n_adapt : ℝ) ≤ p / st.adapt_freq →
        RVEA.advance st p
          = { st with n_adapt := st.n_adapt + 1, survival := st.survival.adapt })
    ∧ (¬ (st.n_adapt : ℝ) ≤ p / st.adapt_freq → RVEA.advance st p = st) := by
  refine ⟨rfl, fun h => ?_, fun h => ?_⟩ <;> simp [RVEA.advance, h]

/-- Witness for C6: with `adapt_freq = 1/10`, counter 1 and a progress jump
to `1/2` (five `adapt_freq` increments at once), one `advance` call fires
exactly one adaptation and increments the counter to 2. -/
theorem C6_witness :
    RVEA.advance ⟨1/10, 1, Sc⟩ (1/2) = ⟨1/10, 2, Sc.adapt⟩ :=
  (C6_adaptation_cadence [] 0 0 ⟨1/10, 1, Sc⟩ (1/2)).2.1 (by norm_num)

/-- Claim C3: the survivor list of a selection call has exactly one entry per
reference direction with at least one assigned candidate (directions with an
empty niche are skipped), so its length equals the number of non-empty
niches and never exceeds the number of reference directions. -/
theorem C3_survivor_count (s : APDSurvival) (term : Termination) (n_obj : ℕ)
    (F0 : List (List ℝ)) :
    (APDSurvival._do s term n_obj F0).1.length
      = ((List.range s.V.length).filter
          (fun k => decide ((doNTI s F0).getD k [] ≠ []))).length
    ∧ (APDSurvival._do s term n_obj F0).1.length ≤ s.V.length := by
  have h1 : (APDSurvival._do s term n_obj F0).1
      = (List.range s.V.length).filterMap (fun k =>
          if (doNTI s F0).getD k [] = [] then none
          else some (nicheSurvivor s F0 n_obj term.perc k)) := rfl
  constructor
  · rw [h1, length_filterMap_niches]
  · rw [h1, length_filterMap_niches]
    calc ((List.range s.V.length).filter
            (fun k => decide ((doNTI s F0).getD k [] ≠ []))).length
        ≤ (List.range s.V.length).length := List.length_filter_le _ _
      _ = s.V.length := List.length_range _

/-- Claim C5: the ideal-point estimate is initialized to `+inf` (`⊤`) in every
component, and each selection call replaces it by the componentwise minimum
of the population's objective values and the previous estimate; hence no
component ever increases across a selection call. -/
theorem C5_ideal_monotone (rd : List (List ℝ)) (a : ℝ) (s : APDSurvival)
    (term : Termination) (n_obj : ℕ) (F0 : List (List ℝ)) (j : ℕ)
    (hj : j < ((APDSurvival._do s term n_obj F0).2.ideal).length) :
    (APDSurvival.init rd a).ideal = List.replicate ((rd.headD []).length) (⊤ : EReal)
    ∧ (APDSurvival._do s term n_obj F0).2.ideal.getD j ⊤
        = min (((colMin F0).getD j 0 : ℝ) : EReal) (s.ideal.getD j ⊤)
    ∧ (APDSurvival._do s term n_obj F0).2.ideal.getD j ⊤ ≤ s.ideal.getD j ⊤ := by
  have hident : (APDSurvival._do s term n_obj F0).2.ideal = doIdeal s F0 := rfl
  rw [hident] at hj ⊢
  have hj2 : j < (List.zipWith (fun (a : ℝ) (b : EReal) => min (a : EReal) b)
      (colMin F0) s.ideal).length := hj
  rw [List.length_zipWith, lt_min_iff] at hj2
  have hget : (doIdeal s F0).getD j ⊤
      = min (((colMin F0).getD j 0 : ℝ) : EReal) (s.ideal.getD j ⊤) := by
    rw [List.getD_eq_getElem _ _ hj,
      List.getD_eq_getElem _ _ hj2.1, List.getD_eq_getElem _ _ hj2.2]
    unfold doIdeal
    rw [List.getElem_zipWith]
  exact ⟨rfl, hget, by rw [hget]; exact min_le_right _ _⟩

/-- Claim C2: in the angle computation of step 4, every dot product handed to
arccos lies in the valid domain `[-1, 1]` (the normalized candidate rows have
norm at most 1, the reference directions have norm at most 1), so clamping
the inputs — the spec's reading — is the identity: the clamped-input angle
matrix coincides with the source's `acuteAngles`, and every computed angle is
a well-defined angle. -/
theorem C2_arccos_domain (V : List (List ℝ)) (FF : List (List ℝ))
    (hV : ∀ v ∈ V, norm2 v ≤ 1) :
    acuteAnglesClamped V (FF.map fprimeOf) = acuteAngles V (FF.map fprimeOf)
    ∧ ∀ f ∈ FF, ∀ v ∈ V, -1 ≤ dot (fprimeOf f) v ∧ dot (fprimeOf f) v ≤ 1 := by
  have hbd : ∀ f ∈ FF, ∀ v ∈ V, -1 ≤ dot (fprimeOf f) v ∧ dot (fprimeOf f) v ≤ 1 :=
    fun f _ v hv => dot_fprime_bounds f v (hV v hv)
  refine ⟨?_, hbd⟩
  unfold acuteAnglesClamped acuteAngles
  apply List.map_congr_left
  intro fp hfp
  obtain ⟨f, hf, rfl⟩ := List.mem_map.mp hfp
  apply List.map_congr_left
  intro v hv
  rw [clampUnit_eq_self _ (hbd f hf v hv).1 (hbd f hf v hv).2]

/-- Witness for C2 at two orthogonal unit directions and one candidate row. -/
theorem C2_witness :
    acuteAnglesClamped [[(1:ℝ), 0], [0, 1]] ([[(3:ℝ), 4]].map fprimeOf)
      = acuteAngles [[(1:ℝ), 0], [0, 1]] ([[(3:ℝ), 4]].map fprimeOf) :=
  (C2_arccos_domain [[(1:ℝ), 0], [0, 1]] [[(3:ℝ), 4]] (by
    intro v hv
    simp only [List.mem_cons, List.not_mem_nil, or_false] at hv
    rcases hv with rfl | rfl <;> norm_num [norm2, dot])).1

/-- Claim C8: when the population has no feasible candidate, the reported
optimum is the single candidate with minimum constraint violation (ties
broken by the first occurrence in population order); otherwise the whole
population is reported. -/
theorem C8_optimum_reporting (cvs : List ℝ) (hne : cvs ≠ []) :
    (¬ has_feasible cvs →
        set_optimum cvs = [argminIdx cvs]
        ∧ argminIdx cvs < cvs.length
        ∧ (∀ j, j < cvs.length → cvs.getD (argminIdx cvs) 0 ≤ cvs.getD j 0)
        ∧ (∀ j, j < argminIdx cvs → cvs.getD (argminIdx cvs) 0 < cvs.getD j 0))
    ∧ (has_feasible cvs → set_optimum cvs = List.range cvs.length) := by
  constructor
  · intro h
    exact ⟨by simp [set_optimum, h], argminIdx_lt_length cvs hne,
      fun j hj => argminIdx_getD_le cvs j hj, fun j hj => argminIdx_first cvs j hj⟩
  · intro h
    simp [set_optimum, h]

/-- Witness for C8: an all-infeasible population with a tie for the minimum
constraint violation; the reported optimum is the singleton first minimizer. -/
theorem C8_witness :
    set_optimum [(2:ℝ), 1, 1] = [argminIdx [(2:ℝ), 1, 1]]
    ∧ argminIdx [(2:ℝ), 1, 1] < 3 :=
  have h := (C8_optimum_reporting [(2:ℝ), 1, 1] (by simp)).1 (by norm_num [has_feasible])
  ⟨h.1, h.2.1⟩

/-- Claim C1: for every reference direction `k` with at least one assigned
candidate, selection scores each assigned candidate `i` with
`apd = dist_to_ideal[i] * (1 + M * progress^alpha * (theta_i / gamma_k))`,
where `M` is the number of objectives when it exceeds 2 and `1.0` otherwise,
`theta_i` is the candidate's angle to direction `k` and `gamma_k` the
direction's precomputed neighbor angle; the survivor chosen for that
direction is an assigned candidate of minimum `apd`, and it appears in the
output of `_do`. -/
theorem C1_apd_minimizer (s : APDSurvival) (term : Termination) (n_obj : ℕ)
    (F0 : List (List ℝ)) (k : ℕ) (hk : k < s.V.length)
    (hne : (doNTI s F0).getD k [] ≠ []) :
    nicheSurvivor s F0 n_obj term.perc k ∈ (doNTI s F0).getD k []
    ∧ nicheSurvivor s F0 n_obj term.perc k ∈ (APDSurvival._do s term n_obj F0).1
    ∧ ∀ j ∈ (doNTI s F0).getD k [],
        (doDist s F0).getD (nicheSurvivor s F0 n_obj term.perc k) 0 *
          (1 + (if 2 < n_obj then (n_obj : ℝ) else 1) * term.perc ^ s.alpha *
            (((doAngles s F0).getD (nicheSurvivor s F0 n_obj term.perc k) []).getD k 0
              / s.gamma.getD k 0))
        ≤ (doDist s F0).getD j 0 *
          (1 + (if 2 < n_obj then (n_obj : ℝ) else 1) * term.perc ^ s.alpha *
            (((doAngles s F0).getD j []).getD k 0 / s.gamma.getD k 0)) := by
  have hmapne : ((doNTI s F0).getD k []).map (apdOf s F0 n_obj term.perc k) ≠ [] := by
    simpa using hne
  have hm := argminIdx_lt_length _ hmapne
  have hm2 : argminIdx (((doNTI s F0).getD k []).map (apdOf s F0 n_obj term.perc k))
      < ((doNTI s F0).getD k []).length := by
    rwa [List.length_map] at hm
  have hsurv : nicheSurvivor s F0 n_obj term.perc k
      = ((doNTI s F0).getD k []).getD
          (argminIdx (((doNTI s F0).getD k []).map (apdOf s F0 n_obj term.perc k))) 0 := rfl
  refine ⟨?_, ?_, ?_⟩
  · rw [hsurv, List.getD_eq_getElem _ _ hm2]
    exact ((doNTI s F0).getD k []).getElem_mem hm2
  · have hdo : (APDSurvival._do s term n_obj F0).1
        = (List.range s.V.length).filterMap (fun k2 =>
            if (doNTI s F0).getD k2 [] = [] then none
            else some (nicheSurvivor s F0 n_obj term.perc k2)) := rfl
    rw [hdo]
    refine List.mem_filterMap.mpr ⟨k, List.mem_range.mpr hk, ?_⟩
    rw [if_neg hne]
  · intro j hj
    show apdOf s F0 n_obj term.perc k (nicheSurvivor s F0 n_obj term.perc k)
        ≤ apdOf s F0 n_obj term.perc k j
    obtain ⟨t, ht, rfl⟩ := List.mem_iff_getElem.mp hj
    have hmt : t < (((doNTI s F0).getD k []).map (apdOf s F0 n_obj term.perc k)).length := by
      rwa [List.length_map]
    have key := argminIdx_getD_le (((doNTI s F0).getD k []).map (apdOf s F0 n_obj term.perc k)) t hmt
    rw [List.getD_eq_getElem _ _ hm, List.getElem_map,
      List.getD_eq_getElem _ _ hmt, List.getElem_map] at key
    rw [hsurv, List.getD_eq_getElem _ _ hm2]
    exact key

/-- Witness for C1 at the concrete state `Sc` and a one-candidate
population: direction 0 has niche `[0]`, and its survivor is in the output. -/
theorem C1_witness :
    nicheSurvivor Sc [[(1:ℝ), 0]] 2 ((1:ℝ)/2) 0
      ∈ (APDSurvival._do Sc ⟨TerminationKind.maxGen, (1:ℝ)/2⟩ 2 [[(1:ℝ), 0]]).1 :=
  (C1_apd_minimizer Sc ⟨TerminationKind.maxGen, (1:ℝ)/2⟩ 2 [[(1:ℝ), 0]] 0
    (by norm_num [Sc])
    (by norm_num [doNTI, doAngles, doFP, doF, doIdeal, colMin, fprimeOf, distOf, norm2, dot,
      acuteAngles, nichesOf, nichesToInd, argminIdx, Sc, min_coe_top,
      List.range_succ, List.range_zero])).2.1

/-- Witness for C5 at the concrete state `Sc`: after one selection call the
first ideal component does not exceed its previous value `⊤`. -/
theorem C5_witness :
    (APDSurvival._do Sc ⟨TerminationKind.maxGen, 0⟩ 2 [[(1:ℝ), 0]]).2.ideal.getD 0 ⊤
      ≤ Sc.ideal.getD 0 ⊤ :=
  (C5_ideal_monotone [[(1:ℝ), 0], [0, 1]] 2 Sc ⟨TerminationKind.maxGen, 0⟩ 2 [[(1:ℝ), 0]] 0
    (by show 0 < (doIdeal Sc [[(1:ℝ), 0]]).length
        norm_num [doIdeal, colMin, Sc])).2.2

section SortedSecond

theorem two_le_countP (l : List ℝ) (p : ℝ → Bool) (i j : ℕ) (hi : i < l.length)
    (hj : j < l.length) (hij : i ≠ j) (hpi : p (l.getD i 0)) (hpj : p (l.getD j 0)) :
    2 ≤ l.countP p := by
  induction l generalizing i j with
  | nil => simp at hi
  | cons x xs ih =>
    rw [List.countP_cons]
    cases i with
    | zero =>
      cases j with
      | zero => exact absurd rfl hij
      | succ t =>
        have hpx : p x := by simpa using hpi
        have ht : t < xs.length := by simpa using hj
        have h1 : 0 < xs.countP p := List.countP_pos_iff.mpr
          ⟨xs.getD t 0, by rw [List.getD_eq_getElem _ _ ht]; exact xs.getElem_mem ht,
            by simpa using hpj⟩
        simp only [hpx, if_true]
        omega
    | succ a =>
      cases j with
      | zero =>
        have hpx : p x := by simpa using hpj
        have ha : a < xs.length := by simpa using hi
        have h1 : 0 < xs.countP p := List.countP_pos_iff.mpr
          ⟨xs.getD a 0, by rw [List.getD_eq_getElem _ _ ha]; exact xs.getElem_mem ha,
            by simpa using hpi⟩
        simp only [hpx, if_true]
        omega
      | succ b =>
        have hcore := ih a b (by simpa using hi) (by simpa using hj) (by omega)
          (by simpa using hpi) (by simpa using hpj)
        split <;> omega

theorem exists_two_idx_of_two_le_countP (l : List ℝ) (p : ℝ → Bool)
    (h : 2 ≤ l.countP p) :
    ∃ i j, i < l.length ∧ j < l.length ∧ i ≠ j ∧ p (l.getD i 0) ∧ p (l.getD j 0) := by
  induction l with
  | nil => simp at h
  | cons x xs ih =>
    rw [List.countP_cons] at h
    by_cases hpx : p x
    · have h1 : 0 < xs.countP p := by
        simp only [hpx, if_true] at h
        omega
      obtain ⟨v, hv, hpv⟩ := List.countP_pos_iff.mp h1
      obtain ⟨t, ht, rfl⟩ := List.mem_iff_getElem.mp hv
      refine ⟨0, t + 1, by simp, by simpa using Nat.succ_lt_succ ht, by omega,
        by simpa using hpx, ?_⟩
      rw [List.getD_cons_succ, List.getD_eq_getElem _ _ ht]
      exact hpv
    · rw [if_neg hpx] at h
      have h2 : 2 ≤ xs.countP p := by omega
      obtain ⟨a, b, ha, hb, hab, hpa, hpb⟩ := ih h2
      exact ⟨a + 1, b + 1, by simpa using Nat.succ_lt_succ ha,
        by simpa using Nat.succ_lt_succ hb, by omega, by simpa using hpa, by simpa using hpb⟩

theorem sortDesc_second (l : List ℝ) (i : ℕ) (hi : i < l.length) (h2 : 2 ≤ l.length)
    (hmax : ∀ x ∈ l, x ≤ l.getD i 0) :
    (∃ j, j < l.length ∧ j ≠ i ∧ l.getD j 0 = (sortDesc l).getD 1 0)
    ∧ ∀ j, j < l.length → j ≠ i → l.getD j 0 ≤ (sortDesc l).getD 1 0 := by
  have hperm : (sortDesc l).Perm l := List.perm_insertionSort _ l
  have hsorted : List.Sorted (fun a b : ℝ => a ≥ b) (sortDesc l) :=
    List.sorted_insertionSort _ l
  have hlen : (sortDesc l).length = l.length := hperm.length_eq
  obtain ⟨a, b, t, hst⟩ : ∃ a b t, sortDesc l = a :: b :: t := by
    match hs : sortDesc l with
    | [] => rw [hs] at hlen; simp at hlen; omega
    | [a] => rw [hs] at hlen; simp at hlen; omega
    | a :: b :: t => exact ⟨a, b, t, rfl⟩
  rw [hst] at hperm hsorted
  have hs1 : (sortDesc l).getD 1 0 = b := by rw [hst]; rfl
  rw [hs1]
  have hMmem : l.getD i 0 ∈ l := by
    rw [List.getD_eq_getElem _ _ hi]
    exact l.getElem_mem hi
  have hsortmem : l.getD i 0 ∈ a :: b :: t := hperm.mem_iff.mpr hMmem
  have hsc := List.sorted_cons.mp hsorted
  have hsc2 := List.sorted_cons.mp hsc.2
  have haM : a = l.getD i 0 := by
    have ha1 : a ≤ l.getD i 0 := hmax a (hperm.subset (List.mem_cons_self a (b :: t)))
    have ha2 : l.getD i 0 ≤ a := by
      rcases List.mem_cons.mp hsortmem with h | h
      · exact le_of_eq h
      · exact hsc.1 _ h
    exact le_antisymm ha1 ha2
  have hub : ∀ j, j < l.length → j ≠ i → l.getD j 0 ≤ b := by
    intro j hj hji
    by_contra hgt
    push_neg at hgt
    have hjmem : l.getD j 0 ∈ l := by
      rw [List.getD_eq_getElem _ _ hj]
      exact l.getElem_mem hj
    have hMgt : b < l.getD i 0 := lt_of_lt_of_le hgt (hmax _ hjmem)
    have hcl : 2 ≤ l.countP (fun x => decide (b < x)) :=
      two_le_countP l _ j i hj hi hji (decide_eq_true hgt) (decide_eq_true hMgt)
    have htc : t.countP (fun x => decide (b < x)) = 0 :=
      List.countP_eq_zero.mpr (fun x hx => by simpa using not_lt.mpr (hsc2.1 x hx))
    have hcs : (a :: b :: t).countP (fun x => decide (b < x)) ≤ 1 := by
      rw [List.countP_cons, List.countP_cons, htc]
      have hbb : (decide (b < b)) = false := decide_eq_false (lt_irrefl b)
      rw [hbb]
      simp only [Bool.false_eq_true, if_false, Nat.zero_add]
      split <;> omega
    have hpc := hperm.countP_eq (fun x => decide (b < x))
    omega
  refine ⟨?_, hub⟩
  have hbmem : b ∈ l := hperm.subset (by simp)
  obtain ⟨jb, hjb, hjbv⟩ := List.mem_iff_getElem.mp hbmem
  by_cases hji : jb = i
  · have hbM : b = l.getD i 0 := by
      rw [← hjbv, ← hji, List.getD_eq_getElem _ _ hjb]
    have hcs2 : 2 ≤ (a :: b :: t).countP (fun x => decide (x = l.getD i 0)) := by
      simp only [List.countP_cons, decide_eq_true hbM, decide_eq_true haM]
      norm_num
    have hcl2 : 2 ≤ l.countP (fun x => decide (x = l.getD i 0)) := by
      rw [← hperm.countP_eq]
      exact hcs2
    obtain ⟨u, v, hu, hv, huv, hpu, hpv⟩ := exists_two_idx_of_two_le_countP l _ hcl2
    by_cases hui : u = i
    · refine ⟨v, hv, by omega, ?_⟩
      rw [of_decide_eq_true hpv, ← hbM]
    · refine ⟨u, hu, hui, ?_⟩
      rw [of_decide_eq_true hpu, ← hbM]
  · refine ⟨jb, hjb, hji, ?_⟩
    rw [List.getD_eq_getElem _ _ hjb]
    exact hjbv

end SortedSecond

/-- Claim C4 (amended): for every unit-normalized direction matrix `V` with
at least two rows, `gamma[i]` equals the maximum of the floor `1e-64` and
the arccos of the second entry of the descending sort of the cosine
similarities of direction `i` with all directions (the source applies the
floor after the arccos); hence `gamma[i] ≥ 1e-64` always, and that second
entry is the cosine similarity to direction `i`'s nearest neighboring
direction (it is attained at some `j ≠ i` and dominates every other
direction's similarity). -/
theorem C4_gamma_neighbor (V : List (List ℝ)) (i : ℕ) (hi : i < V.length)
    (h2 : 2 ≤ V.length) (hunit : ∀ v ∈ V, norm2 v = 1) :
    (calc_gamma V).getD i 0
      = max (Real.arccos ((sortDesc (V.map (fun vj => dot (V.getD i []) vj))).getD 1 0)) 1e-64
    ∧ 1e-64 ≤ (calc_gamma V).getD i 0
    ∧ ∃ j, j < V.length ∧ j ≠ i
        ∧ (sortDesc (V.map (fun vj => dot (V.getD i []) vj))).getD 1 0
            = dot (V.getD i []) (V.getD j [])
        ∧ ∀ j2, j2 < V.length → j2 ≠ i →
            dot (V.getD i []) (V.getD j2 []) ≤ dot (V.getD i []) (V.getD j []) := by
  have hvimem : V.getD i [] ∈ V := by
    rw [List.getD_eq_getElem _ _ hi]
    exact V.getElem_mem hi
  have hvivi : dot (V.getD i []) (V.getD i []) = 1 := by
    have h := hunit _ hvimem
    have hsq : norm2 (V.getD i []) ^ 2 = dot (V.getD i []) (V.getD i []) :=
      Real.sq_sqrt (dot_self_nonneg (V.getD i []))
    rw [h] at hsq
    simpa using hsq.symm
  set row := V.map (fun vj => dot (V.getD i []) vj) with hrow
  have hrl : row.length = V.length := by rw [hrow, List.length_map]
  have hrget : ∀ j, j < V.length → row.getD j 0 = dot (V.getD i []) (V.getD j []) := by
    intro j hj
    rw [hrow, List.getD_eq_getElem _ _ (by rw [List.length_map]; exact hj),
      List.getElem_map, List.getD_eq_getElem _ _ hj]
  have hrmax : ∀ x ∈ row, x ≤ row.getD i 0 := by
    intro x hx
    rw [hrget i hi, hvivi]
    rw [hrow] at hx
    obtain ⟨vj, hvj, rfl⟩ := List.mem_map.mp hx
    have habs := abs_dot_le (V.getD i []) vj
    rw [hunit _ hvimem, hunit _ hvj] at habs
    calc dot (V.getD i []) vj ≤ |dot (V.getD i []) vj| := le_abs_self _
      _ ≤ 1 * 1 := habs
      _ = 1 := by norm_num
  obtain ⟨⟨j, hj, hji, hjv⟩, hub⟩ :=
    sortDesc_second row i (by rw [hrl]; exact hi) (by rw [hrl]; exact h2) hrmax
  have hjV : j < V.length := by rw [← hrl]; exact hj
  have hglen : i < (calc_gamma V).length := by
    unfold calc_gamma
    rw [List.length_map]
    exact hi
  have hVi : V.getD i [] = V[i] := List.getD_eq_getElem _ _ hi
  have hg : (calc_gamma V).getD i 0
      = max (Real.arccos ((sortDesc row).getD 1 0)) 1e-64 := by
    rw [List.getD_eq_getElem _ _ hglen, hrow, hVi]
    unfold calc_gamma
    rw [List.getElem_map]
  refine ⟨hg, by rw [hg]; exact le_max_right _ _, j, hjV, hji, ?_, ?_⟩
  · rw [← hjv, hrget j hjV]
  · intro j2 hj2 hji2
    have hu := hub j2 (by rw [hrl]; exact hj2) hji2
    rw [hrget j2 hj2] at hu
    rw [hrget j hjV] at hjv
    rw [← hjv] at hu
    exact hu

/-- Counterexample for C4 as stated: with the unit-normalized direction
matrix `[[1,0],[1,0]]` (two coincident directions), the second-largest
cosine similarity for direction 0 is 1 and its arccos is 0, but the source
floors the angle afterwards, so `gamma[0] = 1e-64 ≠ 0`: `gamma[0]` is not
the arccos of the second-largest cosine similarity. -/
theorem C4_counterexample :
    norm2 [(1:ℝ), 0] = 1
    ∧ (calc_gamma [[(1:ℝ), 0], [1, 0]]).getD 0 0
        ≠ Real.arccos ((sortDesc ([[(1:ℝ), 0], [1, 0]].map
            (fun vj => dot ([[(1:ℝ), 0], [1, 0]].getD 0 []) vj))).getD 1 0) := by
  constructor
  · norm_num [norm2, dot]
  · norm_num [calc_gamma, sortDesc, List.insertionSort, List.orderedInsert, dot,
      Real.arccos_one, max_def]

/-- Witness for the amended C4 at two orthogonal unit directions. -/
theorem C4_witness :
    1e-64 ≤ (calc_gamma [[(1:ℝ), 0], [0, 1]]).getD 0 0 :=
  (C4_gamma_neighbor [[(1:ℝ), 0], [0, 1]] 0 (by norm_num) (by norm_num) (by
    intro v hv
    simp only [List.mem_cons, List.not_mem_nil, or_false] at hv
    rcases hv with rfl | rfl <;> norm_num [norm2, dot])).2.1
